import Mathlib

/-!
Verification of the short-time processing core of `audlib` against its
natural-language specification.

The definitions below are a shallow embedding of `src/audlib/sig/stproc.py`.
Signals, windows and frames are lists of rationals (exact arithmetic stands in
for IEEE floats).  Python's `int()` truncation, `math.ceil` of a true division,
Python slice-index normalization, and numpy's slice assignment / in-place add
with broadcasting (shapes `(n,)` vs `(n,)` or `(1,)`) are modelled explicitly.
Fallible numpy operations (broadcast errors on mismatched shapes, `np.zeros` on
a negative size, negative `as_strided` shapes, division by a zero window
length) are modelled with `Option`.

The hop argument of the source functions is resolved by the external
collaborator `hop2hsize` (module `audlib.sig.window`, outside the analysed
core).  Per the HopResolver contract an integer hop is passed through
unchanged, so the definitions here take the resolved integer hop size `hsize`
directly.  The unused sampling-rate parameter `sr` is kept where the source has
it.
-/

/-- Python `int()` applied to an exact rational: truncation toward zero. -/
def pyInt (q : ℚ) : ℤ :=
  if q < 0 then ⌈q⌉ else ⌊q⌋

/-- Python `math.ceil(a / b)` for integer `a` and natural `b`, with the true
division carried out exactly. -/
def iceil (a : ℤ) (b : ℕ) : ℤ :=
  ⌈(a : ℚ) / (b : ℚ)⌉

/-- Normalization of one Python slice endpoint against a sequence of length
`L`: negative indices count from the end, and the result is clamped to
`[0, L]`. -/
def pySliceIdx (L : ℤ) (i : ℤ) : ℤ :=
  if i < 0 then max 0 (L + i) else min i L

/-- Python `l[:b]`. -/
def pyTake (l : List ℚ) (b : ℤ) : List ℚ :=
  l.take (pySliceIdx l.length b).toNat

/-- Python `l[a:]`. -/
def pyDrop (l : List ℚ) (a : ℤ) : List ℚ :=
  l.drop (pySliceIdx l.length a).toNat

/-- numpy `sout[a:b] += vals` on 1-D arrays: the slice endpoints are
normalized, then `vals` must have exactly the slice's length, or length 1
(numpy broadcasting); any other shape raises, modelled as `none`. -/
def npAddSlice (sout : List ℚ) (a b : ℤ) (vals : List ℚ) : Option (List ℚ) :=
  let L : ℤ := sout.length
  let a' : ℕ := (pySliceIdx L a).toNat
  let b' : ℕ := (pySliceIdx L b).toNat
  let slen : ℕ := b' - a'
  if vals.length = slen then
    some ((List.range sout.length).map (fun j =>
      if a' ≤ j ∧ j < a' + slen then sout.getD j 0 + vals.getD (j - a') 0
      else sout.getD j 0))
  else if vals.length = 1 then
    some ((List.range sout.length).map (fun j =>
      if a' ≤ j ∧ j < a' + slen then sout.getD j 0 + vals.getD 0 0
      else sout.getD j 0))
  else none

/-- numpy `np.arange(a, b, step)` for a positive integer step. -/
def npArange (a b : ℤ) (step : ℕ) : List ℤ :=
  (List.range (iceil (b - a) step).toNat).map (fun (k : ℕ) => a + (k : ℤ) * step)

/-- `sstart = hsize - fsize if synth else 0` — the start offset of the framing
grid, shared by `stcenters`, `numframes` and `stana`. -/
def sstartOf (fsize hsize : ℕ) (synth : Bool) : ℤ :=
  if synth then (hsize : ℤ) - fsize else 0

/-- `nframe = math.ceil((send - sstart) / hsize)` with `send = ssize`. -/
def nframeOf (ssize fsize hsize : ℕ) (synth : Bool) : ℤ :=
  iceil ((ssize : ℤ) - sstartOf fsize hsize synth) hsize

/-- `zpleft = -sstart` as computed in `stana` (no clamping to 0). -/
def zpleftOf (fsize hsize : ℕ) (synth : Bool) : ℤ :=
  -sstartOf fsize hsize synth

/-- `zpright = (nframe-1)*hsize + fsize - zpleft - ssize` as computed in
`stana` (no clamping to 0). -/
def zprightOf (ssize fsize hsize : ℕ) (synth : Bool) : ℤ :=
  (nframeOf ssize fsize hsize synth - 1) * hsize + fsize -
    zpleftOf fsize hsize synth - ssize

/-- The padded working buffer of `stana`:
`sigpad = np.zeros(ssize+zpleft+zpright); sigpad[zpleft:len(sigpad)-zpright] = sig`
when `zpleft > 0 or zpright > 0`, else the signal itself.  `np.zeros` of a
negative size and a slice assignment whose normalized slice length matches
neither `len(sig)` nor numpy's length-1 broadcast raise, modelled as `none`. -/
def stanaPad (sig : List ℚ) (fsize hsize : ℕ) (synth : Bool) : Option (List ℚ) :=
  let zpl : ℤ := zpleftOf fsize hsize synth
  let zpr : ℤ := zprightOf sig.length fsize hsize synth
  if 0 < zpl ∨ 0 < zpr then
    let L : ℤ := (sig.length : ℤ) + zpl + zpr
    if L < 0 then none
    else
      let a : ℕ := (pySliceIdx L zpl).toNat
      let b : ℕ := (pySliceIdx L (L - zpr)).toNat
      if sig.length = b - a then
        some (List.replicate a (0 : ℚ) ++ sig ++ List.replicate (L.toNat - b) (0 : ℚ))
      else if sig.length = 1 then
        some ((List.range L.toNat).map (fun j =>
          if a ≤ j ∧ j < b then sig.getD 0 0 else 0))
      else none
  else some sig

/-- `stana(sig, sr, wind, hop, synth)`: short-time analysis.  Frame `i` is the
strided view row `sigpad[i*hsize : i*hsize + fsize]` multiplied elementwise by
the window (`as_strided(sigpad, shape=(nframe, fsize), strides=(std*hsize, std))
* wind`); a negative `nframe` shape raises. -/
def stana (sig : List ℚ) (sr : ℕ) (wind : List ℚ) (hsize : ℕ) (synth : Bool) :
    Option (List (List ℚ)) :=
  let nframe : ℤ := nframeOf sig.length wind.length hsize synth
  (stanaPad sig wind.length hsize synth).bind (fun sigpad =>
    if nframe < 0 then none
    else some ((List.range nframe.toNat).map (fun i =>
      (List.range wind.length).map (fun j =>
        sigpad.getD (i * hsize + j) 0 * wind.getD j 0))))

/-- `numframes(sig, sr, wind, hop, synth)`: total number of frames
`math.ceil((send - sstart) / hsize)`. -/
def numframes (sig : List ℚ) (sr : ℕ) (wind : List ℚ) (hsize : ℕ) (synth : Bool) : ℤ :=
  nframeOf sig.length wind.length hsize synth

/-- `stcenters(sig, sr, wind, hop, synth)`:
`(np.arange(sstart, send, hsize) + (fsize-1)/2.) / sr`. -/
def stcenters (sig : List ℚ) (sr : ℕ) (wind : List ℚ) (hsize : ℕ) (synth : Bool) :
    List ℚ :=
  (npArange (sstartOf wind.length hsize synth) (sig.length : ℤ) hsize).map
    (fun (s : ℤ) => ((s : ℚ) + ((wind.length : ℚ) - 1) / 2) / (sr : ℚ))

/-- `sstart = int(-fsize * (1 - hfrac))` with `hfrac = hsize / fsize`, the
synthesizer's independently implemented start offset. -/
def olaSstart (fsize hsize : ℕ) : ℤ :=
  pyInt (-(fsize : ℚ) * (1 - (hsize : ℚ) / (fsize : ℚ)))

/-- `ssize = hsize*(nframe-1) + fsize`: total overlap-add extent. -/
def olaSsize (fsize hsize nframe : ℕ) : ℤ :=
  (hsize : ℤ) * ((nframe : ℤ) - 1) + fsize

/-- `send = ssize + sstart`: overlap-add ending index, the length of the
accumulation buffer returned by `ola`. -/
def olaSend (fsize hsize nframe : ℕ) : ℤ :=
  olaSsize fsize hsize nframe + olaSstart fsize hsize

/-- The accumulation loop of `ola`: for each frame, truncate to `fsize`
(`frame = frame[:fsize]`), then add it into the buffer by the three-way branch
on `ii` (`sout[:ii+fsize] += frame[-ii:]` / `sout[ii:] += frame[:send-ii]` /
`sout[ii:ii+fsize] += frame`), advancing `ii` by `hsize`.  A numpy shape error
aborts the call. -/
def olaLoop (hsize : ℕ) (fsize send : ℤ) :
    List (List ℚ) → List ℚ → ℤ → Option (List ℚ)
  | [], sout, _ => some sout
  | frame :: rest, sout, ii =>
    let f' := pyTake frame fsize
    let step :=
      if ii < 0 then npAddSlice sout 0 (ii + fsize) (pyDrop f' (-ii))
      else if send < ii + fsize then
        npAddSlice sout ii (sout.length : ℤ) (pyTake f' (send - ii))
      else npAddSlice sout ii (ii + fsize) f'
    step.bind (fun sout' => olaLoop hsize fsize send rest sout' (ii + hsize))

/-- `ola(sframes, sr, wind, hop)`: overlap-add synthesis.  `hfrac = hsize/fsize`
raises `ZeroDivisionError` on an empty window; the accumulation buffer is
`np.zeros(send)`. -/
def ola (sframes : List (List ℚ)) (sr : ℕ) (wind : List ℚ) (hsize : ℕ) :
    Option (List ℚ) :=
  if wind.length = 0 then none
  else
    olaLoop hsize (wind.length : ℤ) (olaSend wind.length hsize sframes.length)
      sframes (List.replicate (olaSend wind.length hsize sframes.length).toNat 0)
      (olaSstart wind.length hsize)

/-- The overlap-add window sum anchored at offset `t`: the sum of
`wind[t + k*hsize]` over the window's support (indices past the window
contribute 0; `k` up to `wind.length` always suffices once `1 ≤ hsize`). -/
def colaAt (wind : List ℚ) (hsize t : ℕ) : ℚ :=
  ∑ k ∈ Finset.range wind.length, wind.getD (t + k * hsize) 0

/-- The constant-overlap-add property with constant 1: all `hsize` residue
classes of window positions sum to 1. -/
def cola (wind : List ℚ) (hsize : ℕ) : Prop :=
  ∀ t, t < hsize → colaAt wind hsize t = 1

instance (wind : List ℚ) (hsize : ℕ) : Decidable (cola wind hsize) :=
  inferInstanceAs (Decidable (∀ t, t < hsize → colaAt wind hsize t = 1))

/-! ### Basic lemmas about the Python/numpy primitives -/

lemma iceil_eq (a : ℤ) (b : ℕ) : iceil a b = -(-a / (b : ℤ)) := by
  unfold iceil
  rw [show ((a : ℚ)) / ((b : ℕ) : ℚ) = -(((-a : ℤ) : ℚ) / ((b : ℕ) : ℚ)) by push_cast; ring]
  rw [Int.ceil_neg, Rat.floor_intCast_div_natCast]

lemma pyInt_intCast (n : ℤ) : pyInt (n : ℚ) = n := by
  unfold pyInt
  rcases lt_or_ge ((n : ℚ)) 0 with h | h
  · rw [if_pos h, Int.ceil_intCast]
  · rw [if_neg (not_lt.mpr h), Int.floor_intCast]

lemma olaSstart_eq (fsize hsize : ℕ) (hf : 1 ≤ fsize) :
    olaSstart fsize hsize = (hsize : ℤ) - fsize := by
  have h0 : (fsize : ℚ) ≠ 0 := by positivity
  have hq : (-(fsize : ℚ) * (1 - (hsize : ℚ) / (fsize : ℚ))) = (((hsize : ℤ) - fsize : ℤ) : ℚ) := by
    push_cast
    field_simp
    ring
  unfold olaSstart
  rw [hq, pyInt_intCast]

lemma olaSend_eq (fsize hsize n : ℕ) (hf : 1 ≤ fsize) :
    olaSend fsize hsize n = (hsize : ℤ) * n := by
  rw [olaSend, olaSsize, olaSstart_eq fsize hsize hf]
  ring

lemma iceil_nonneg (a : ℤ) (b : ℕ) (hb : 0 < b) (ha : -(b : ℤ) < a) :
    0 ≤ iceil a b := by
  have hbq : (0 : ℚ) < (b : ℚ) := by exact_mod_cast hb
  have haq : (-(b : ℤ) : ℚ) < (a : ℚ) := by exact_mod_cast ha
  have h1 : ((-1 : ℤ) : ℚ) < (a : ℚ) / (b : ℚ) := by
    rw [lt_div_iff₀ hbq]
    push_cast
    push_cast at haq
    linarith
  have h2 : (-1 : ℤ) < iceil a b := by
    unfold iceil
    exact Int.lt_ceil.mpr h1
  omega

lemma le_iceil_mul (a : ℤ) (b : ℕ) (hb : 0 < b) : a ≤ iceil a b * b := by
  have hbq : (0 : ℚ) < (b : ℚ) := by exact_mod_cast hb
  have h1 : (a : ℚ) / (b : ℚ) ≤ ((iceil a b : ℤ) : ℚ) := Int.le_ceil _
  have h2 : (a : ℚ) ≤ ((iceil a b * b : ℤ) : ℚ) := by
    rw [div_le_iff₀ hbq] at h1
    push_cast
    linarith
  exact_mod_cast h2

lemma iceil_mul_lt (a : ℤ) (b : ℕ) (hb : 0 < b) : iceil a b * b < a + b := by
  have hbq : (0 : ℚ) < (b : ℚ) := by exact_mod_cast hb
  have h1 : ((iceil a b : ℤ) : ℚ) < (a : ℚ) / (b : ℚ) + 1 := Int.ceil_lt_add_one _
  have h2 : ((iceil a b * b : ℤ) : ℚ) < (a : ℚ) + b := by
    push_cast
    push_cast at h1
    calc (iceil a b : ℚ) * b < ((a : ℚ) / b + 1) * b := by
          exact mul_lt_mul_of_pos_right h1 hbq
      _ = (a : ℚ) + b := by field_simp
  exact_mod_cast h2

lemma getD_range_map {α : Type} (g : ℕ → α) (d : α) (n j : ℕ) :
    ((List.range n).map g).getD j d = if j < n then g j else d := by
  rcases lt_or_ge j n with hj | hj
  · rw [if_pos hj, List.getD_eq_getElem _ _ (by simpa using hj)]
    simp
  · rw [if_neg (by omega), List.getD_eq_default _ _ (by simpa using hj)]

lemma getD_replicate (n j : ℕ) : (List.replicate n (0 : ℚ)).getD j 0 = 0 := by
  rcases lt_or_ge j n with hj | hj
  · rw [List.getD_eq_getElem _ _ (by simpa using hj)]
    simp
  · rw [List.getD_eq_default _ _ (by simpa using hj)]

/-! ### Claim theorems: simple claims -/

/-- Claim C4: the synthesizer's internally computed start offset
`int(-fsize*(1-hsize/fsize))` coincides with the analysis-side
synthesis-aligned start offset `hsize - fsize` for every window length
`fsize ≥ 1` and hop size `hsize ≥ 1`. -/
theorem ola_sstart_agrees (fsize hsize : ℕ) (hf : 1 ≤ fsize) (hh : 1 ≤ hsize) :
    olaSstart fsize hsize = sstartOf fsize hsize true := by
  rw [olaSstart_eq fsize hsize hf, sstartOf]
  simp

/-- Witness for C4 at the spec's example geometry `fsize = 8`, `hsize = 4`. -/
theorem ola_sstart_agrees_witness :
    1 ≤ 8 ∧ 1 ≤ 4 ∧ olaSstart 8 4 = sstartOf 8 4 true :=
  ⟨by decide, by decide, ola_sstart_agrees 8 4 (by decide) (by decide)⟩

/-- Claim C3, counterexample: with the parameters exactly as given (and the
default `synth=False` flag of `stana`), the first frame is the unpadded
`[1,2,3,4]`, not the left-padded `[0,0,1,2]` the claim states. -/
theorem stana_first_frame_default_cex :
    (stana [1, 2, 3, 4, 5] 1 [1, 1, 1, 1] 2 false).bind List.head? =
      some [1, 2, 3, 4] ∧
    ¬((stana [1, 2, 3, 4, 5] 1 [1, 1, 1, 1] 2 false).bind List.head? =
      some [0, 0, 1, 2]) := by
  have h : stana [1, 2, 3, 4, 5] 1 [1, 1, 1, 1] 2 false =
      some [[1, 2, 3, 4], [3, 4, 5, 0], [5, 0, 0, 0]] := by
    norm_num [stana, stanaPad, nframeOf, sstartOf, zpleftOf, zprightOf, iceil_eq,
      pySliceIdx, List.range_succ]
    all_goals decide
  rw [h]
  norm_num

/-- Claim C3, amended: with the synthesis-aligned flag `synth=True`, `stana`
on `[1,2,3,4,5]` with an all-ones window of length 4 and hop size 2 yields
`[0,0,1,2]` (left zero-padded) as first frame and `[5,0,0,0]` (trailing
samples right zero-padded to length 4) as last frame. -/
theorem stana_first_last_frame_synth :
    (stana [1, 2, 3, 4, 5] 1 [1, 1, 1, 1] 2 true).bind List.head? =
      some [0, 0, 1, 2] ∧
    (stana [1, 2, 3, 4, 5] 1 [1, 1, 1, 1] 2 true).bind (fun F => F.getLast?) =
      some [5, 0, 0, 0] := by
  have h : stana [1, 2, 3, 4, 5] 1 [1, 1, 1, 1] 2 true =
      some [[0, 0, 1, 2], [1, 2, 3, 4], [3, 4, 5, 0], [5, 0, 0, 0]] := by
    norm_num [stana, stanaPad, nframeOf, sstartOf, zpleftOf, zprightOf, iceil_eq,
      pySliceIdx, List.range_succ]
    all_goals decide
  rw [h]
  norm_num [List.getLast?]

/-- Claim C6: at `sig = [1,1]`, `wind = [1,1]`, `hsize = 3`, `synth = true`
(hop size exceeding the window length in synthesis-aligned mode), `stana`
computes the zero-pad amount `zpleft = -sstart = -1`, which differs from the
claimed `max(0, -sstart) = 0` and is negative; the padded-buffer construction
then fails (numpy broadcast error) instead of producing padded frames. -/
theorem stana_zpleft_negative_bug :
    zpleftOf 2 3 true = -1 ∧
    max 0 (-sstartOf 2 3 true) = 0 ∧
    stana [1, 1] 1 [1, 1] 3 true = none := by
  refine ⟨by norm_num [zpleftOf, sstartOf], by norm_num [sstartOf], ?_⟩
  norm_num [stana, stanaPad, nframeOf, sstartOf, zpleftOf, zprightOf, iceil_eq, pySliceIdx]

/-- Claim C8: `ola` performs no call-entry validation of frame lengths: the
single frame `[1,2,3]` is shorter than the window `[1,1,1,1]`, yet with hop
size 2 the call silently succeeds (numpy length-1 broadcasting at the left
edge) and returns the reconstruction `[3,3]` instead of failing. -/
theorem ola_short_frame_no_entry_check_bug :
    ola [[1, 2, 3]] 1 [1, 1, 1, 1] 2 = some [3, 3] ∧
    ([1, 2, 3] : List ℚ).length < ([1, 1, 1, 1] : List ℚ).length := by
  constructor
  · have hs : olaSstart 4 2 = -2 := by rw [olaSstart_eq 4 2 (by norm_num)]; norm_num
    have he : olaSend 4 2 1 = 2 := by rw [olaSend, olaSsize, hs]; norm_num
    norm_num [ola, olaLoop, he, hs, npAddSlice, pyTake, pyDrop, pySliceIdx,
      List.range_succ]
    all_goals decide
  · norm_num

/-- Claim C2, counterexample: at `sig = [1,1]`, `wind = [1,1]`, `hsize = 3`,
`synth = true`, `numframes` returns 1 but `stana` raises (numpy broadcast
error while building the padded buffer), so `len(stana(...))` is not defined,
let alone equal to `numframes(...)`. -/
theorem numframes_stana_mismatch_cex :
    (stana [1, 1] 1 [1, 1] 3 true).map List.length = none ∧
    numframes [1, 1] 1 [1, 1] 3 true = 1 := by
  constructor
  · have h : stana [1, 1] 1 [1, 1] 3 true = none := by
      norm_num [stana, stanaPad, nframeOf, sstartOf, zpleftOf, zprightOf, iceil_eq, pySliceIdx]
    rw [h]
    rfl
  · norm_num [numframes, nframeOf, sstartOf, iceil_eq]

/-- Claim C2, amended: whenever `stana` returns a frame sequence (it raises
for `synth=true` with hop size exceeding the window length once padding is
triggered), its length equals `numframes` with the same arguments. -/
theorem numframes_eq_stana_length (sig wind : List ℚ) (sr hsize : ℕ)
    (synth : Bool) (frames : List (List ℚ)) (hw : 1 ≤ wind.length)
    (hh : 1 ≤ hsize) (hs : stana sig sr wind hsize synth = some frames) :
    (frames.length : ℤ) = numframes sig sr wind hsize synth := by
  unfold stana at hs
  rcases hpad : stanaPad sig wind.length hsize synth with _ | sigpad
  · rw [hpad] at hs
    simp at hs
  · rw [hpad, Option.some_bind] at hs
    by_cases hn : nframeOf sig.length wind.length hsize synth < 0
    · rw [if_pos hn] at hs
      exact absurd hs (by simp)
    · rw [if_neg hn] at hs
      have hf := (Option.some.injEq _ _).mp hs
      rw [← hf]
      simp only [List.length_map, List.length_range, numframes]
      omega

/-! ### Characterization of the padded buffer -/

lemma stanaPad_of_nonneg (sig : List ℚ) (fsize hsize : ℕ) (synth : Bool)
    (hl : 0 ≤ zpleftOf fsize hsize synth)
    (hr : 0 ≤ zprightOf sig.length fsize hsize synth) :
    stanaPad sig fsize hsize synth =
      some (List.replicate (zpleftOf fsize hsize synth).toNat (0 : ℚ) ++ sig ++
        List.replicate (zprightOf sig.length fsize hsize synth).toNat (0 : ℚ)) := by
  simp only [stanaPad]
  set zl := zpleftOf fsize hsize synth with hzl
  set zr := zprightOf sig.length fsize hsize synth with hzr
  by_cases hb : 0 < zl ∨ 0 < zr
  · rw [if_pos hb]
    have hss : (0 : ℤ) ≤ (sig.length : ℤ) := by positivity
    have hL : 0 ≤ (sig.length : ℤ) + zl + zr := by omega
    rw [if_neg (by omega)]
    have ha : pySliceIdx ((sig.length : ℤ) + zl + zr) zl = zl := by
      unfold pySliceIdx
      rw [if_neg (by omega)]
      omega
    have hb2 : pySliceIdx ((sig.length : ℤ) + zl + zr)
        (((sig.length : ℤ) + zl + zr) - zr) = (sig.length : ℤ) + zl := by
      unfold pySliceIdx
      rw [if_neg (by omega)]
      omega
    rw [ha, hb2, if_pos (by omega)]
    have h1 : ((sig.length : ℤ) + zl).toNat - zl.toNat = sig.length := by omega
    have h2 : ((sig.length : ℤ) + zl + zr).toNat - ((sig.length : ℤ) + zl).toNat =
        zr.toNat := by omega
    rw [h2]
  · rw [if_neg hb]
    push_neg at hb
    have h1 : zl = 0 := by omega
    have h2 : zr = 0 := by omega
    rw [h1, h2]
    simp

lemma stanaPad_of_nonpos (sig : List ℚ) (fsize hsize : ℕ) (synth : Bool)
    (hl : zpleftOf fsize hsize synth ≤ 0)
    (hr : zprightOf sig.length fsize hsize synth ≤ 0) :
    stanaPad sig fsize hsize synth = some sig := by
  simp only [stanaPad]
  rw [if_neg (by omega)]

/-- The closed form of a successful `stana` call: `nframe` windowed rows read
off the padded buffer at stride `hsize`. -/
lemma stana_eq_of_nonneg (sig wind : List ℚ) (sr hsize : ℕ) (synth : Bool)
    (hl : 0 ≤ zpleftOf wind.length hsize synth)
    (hr : 0 ≤ zprightOf sig.length wind.length hsize synth)
    (hn : 0 ≤ nframeOf sig.length wind.length hsize synth) :
    stana sig sr wind hsize synth =
      some ((List.range (nframeOf sig.length wind.length hsize synth).toNat).map
        (fun i => (List.range wind.length).map (fun j =>
          (List.replicate (zpleftOf wind.length hsize synth).toNat (0 : ℚ) ++ sig ++
            List.replicate (zprightOf sig.length wind.length hsize synth).toNat
              (0 : ℚ)).getD (i * hsize + j) 0 * wind.getD j 0))) := by
  unfold stana
  rw [stanaPad_of_nonneg sig wind.length hsize synth hl hr, Option.some_bind,
    if_neg (by omega)]

/-- Claim C9: for the empty signal in analysis mode, `numframes` returns 0 and
`stana` returns the empty frame sequence; neither call raises. -/
theorem stana_numframes_empty_signal (wind : List ℚ) (sr hsize : ℕ)
    (hw : 1 ≤ wind.length) (hh : 1 ≤ hsize) :
    numframes [] sr wind hsize false = 0 ∧
    stana [] sr wind hsize false = some [] := by
  have h0 : nframeOf 0 wind.length hsize false = 0 := by
    simp [nframeOf, sstartOf, iceil]
  have hl : zpleftOf wind.length hsize false = 0 := by
    simp [zpleftOf, sstartOf]
  constructor
  · simpa [numframes] using h0
  · rcases le_or_lt (zprightOf 0 wind.length hsize false) 0 with hr | hr
    · unfold stana
      rw [stanaPad_of_nonpos [] wind.length hsize false (by omega) (by simpa using hr),
        Option.some_bind]
      simp only [List.length_nil]
      rw [if_neg (by omega), h0]
      simp
    · unfold stana
      rw [stanaPad_of_nonneg [] wind.length hsize false (by omega) (by simpa using hr.le),
        Option.some_bind]
      simp only [List.length_nil]
      rw [if_neg (by omega), h0]
      simp

/-- Witness for C9 at `wind = [1,1,1]`, `sr = 1`, `hsize = 2`. -/
theorem stana_numframes_empty_signal_witness :
    numframes [] 1 [1, 1, 1] 2 false = 0 ∧
    stana [] 1 [1, 1, 1] 2 false = some [] :=
  stana_numframes_empty_signal [1, 1, 1] 1 2 (by norm_num) (by norm_num)

/-- Claim C10: `ola` on an empty frame sequence returns the empty signal and
raises no error, for any positive window length and hop size. -/
theorem ola_empty_frames (wind : List ℚ) (sr hsize : ℕ)
    (hw : 1 ≤ wind.length) (hh : 1 ≤ hsize) :
    ola [] sr wind hsize = some [] := by
  have hsend : olaSend wind.length hsize 0 = 0 := by
    rw [olaSend, olaSsize, olaSstart_eq _ _ hw]
    ring
  unfold ola
  rw [if_neg (by omega), show (([] : List (List ℚ))).length = 0 from rfl, hsend]
  simp [olaLoop]

/-- Witness for C10 at `wind = [1,1,1]`, `sr = 1`, `hsize = 2`. -/
theorem ola_empty_frames_witness : ola [] 1 [1, 1, 1] 2 = some [] :=
  ola_empty_frames [1, 1, 1] 1 2 (by norm_num) (by norm_num)

/-- Claim C7: `stcenters` returns exactly `numframes` values, the `i`-th being
`(sstart + i*hsize + (fsize-1)/2) / sr` with the `sstart` of the given
boundary mode. -/
theorem stcenters_spec (sig wind : List ℚ) (sr hsize : ℕ) (synth : Bool)
    (hw : 1 ≤ wind.length) (hh : 1 ≤ hsize) :
    ((stcenters sig sr wind hsize synth).length : ℤ) =
      numframes sig sr wind hsize synth ∧
    ∀ i < (stcenters sig sr wind hsize synth).length,
      (stcenters sig sr wind hsize synth).getD i 0 =
        ((sstartOf wind.length hsize synth : ℚ) + (i : ℚ) * hsize +
          ((wind.length : ℚ) - 1) / 2) / sr := by
  have hn : 0 ≤ iceil ((sig.length : ℤ) - sstartOf wind.length hsize synth) hsize := by
    apply iceil_nonneg _ _ hh
    unfold sstartOf
    split
    · have : (0 : ℤ) ≤ (sig.length : ℤ) := by positivity
      omega
    · have : (0 : ℤ) ≤ (sig.length : ℤ) := by positivity
      omega
  constructor
  · simp only [stcenters, npArange, List.length_map, List.length_range, numframes, nframeOf]
    omega
  · intro i hi
    simp only [stcenters, npArange, List.map_map] at hi ⊢
    rw [getD_range_map]
    simp only [List.length_map, List.length_range] at hi
    rw [if_pos hi]
    simp only [Function.comp]
    push_cast
    ring

/-- Witness for C7 at window length 4, hop size 2, `sr = 1`, signal length 6,
analysis mode: three centers, the first equal to `1.5`. -/
theorem stcenters_spec_witness :
    (((stcenters [0, 0, 0, 0, 0, 0] 1 [1, 1, 1, 1] 2 false).length : ℤ) =
      numframes [0, 0, 0, 0, 0, 0] 1 [1, 1, 1, 1] 2 false ∧
     ∀ i < (stcenters [0, 0, 0, 0, 0, 0] 1 [1, 1, 1, 1] 2 false).length,
      (stcenters [0, 0, 0, 0, 0, 0] 1 [1, 1, 1, 1] 2 false).getD i 0 =
        ((sstartOf 4 2 false : ℚ) + (i : ℚ) * 2 + (((4 : ℕ) : ℚ) - 1) / 2) / 1) ∧
    (stcenters [0, 0, 0, 0, 0, 0] 1 [1, 1, 1, 1] 2 false).getD 0 0 = 3 / 2 := by
  have h := stcenters_spec [0, 0, 0, 0, 0, 0] [1, 1, 1, 1] 1 2 false
    (by norm_num) (by norm_num)
  refine ⟨h, ?_⟩
  have h0 := h.2 0 (by
    have := h.1
    norm_num [numframes, nframeOf, sstartOf, iceil_eq] at this
    omega)
  rw [h0]
  norm_num [sstartOf]

/-! ### List indexing helpers -/

lemma getD_take (l : List ℚ) (n m : ℕ) :
    (l.take n).getD m 0 = if m < n then l.getD m 0 else 0 := by
  rw [List.getD_eq_getElem?_getD, List.getElem?_take]
  split <;> simp [List.getD_eq_getElem?_getD]

lemma getD_drop (l : List ℚ) (n m : ℕ) :
    (l.drop n).getD m 0 = l.getD (n + m) 0 := by
  rw [List.getD_eq_getElem?_getD, List.getElem?_drop, ← List.getD_eq_getElem?_getD]

lemma getD_append (l1 l2 : List ℚ) (j : ℕ) :
    (l1 ++ l2).getD j 0 =
      if j < l1.length then l1.getD j 0 else l2.getD (j - l1.length) 0 := by
  rcases lt_or_ge j l1.length with h | h
  · rw [if_pos h, List.getD_eq_getElem?_getD, List.getElem?_append_left h,
      ← List.getD_eq_getElem?_getD]
  · rw [if_neg (by omega), List.getD_eq_getElem?_getD, List.getElem?_append_right h,
      ← List.getD_eq_getElem?_getD]

lemma list_eq_of_getD (l1 l2 : List ℚ) (hlen : l1.length = l2.length)
    (h : ∀ j, j < l1.length → l1.getD j 0 = l2.getD j 0) : l1 = l2 := by
  apply List.ext_getElem hlen
  intro j h1 h2
  have hj := h j h1
  rwa [List.getD_eq_getElem _ _ h1, List.getD_eq_getElem _ _ h2] at hj

lemma pyTake_natCast (l : List ℚ) (n : ℕ) : pyTake l (n : ℤ) = l.take n := by
  unfold pyTake pySliceIdx
  rw [if_neg (by omega)]
  have h1 : (min (n : ℤ) ((l.length : ℕ) : ℤ)).toNat = min n l.length := by omega
  rw [h1]
  rcases le_total n l.length with h | h
  · rw [min_eq_left h]
  · rw [min_eq_right h, List.take_length, List.take_of_length_le h]

lemma pyDrop_natCast (l : List ℚ) (n : ℕ) : pyDrop l (n : ℤ) = l.drop n := by
  unfold pyDrop pySliceIdx
  rw [if_neg (by omega)]
  have h1 : (min (n : ℤ) ((l.length : ℕ) : ℤ)).toNat = min n l.length := by omega
  rw [h1]
  rcases le_total n l.length with h | h
  · rw [min_eq_left h]
  · rw [min_eq_right h, List.drop_length, List.drop_eq_nil_of_le h]

lemma npAddSlice_spec (sout vals : List ℚ) (a b : ℤ) (a0 b0 : ℕ)
    (ha : pySliceIdx ((sout.length : ℕ) : ℤ) a = (a0 : ℤ))
    (hb : pySliceIdx ((sout.length : ℕ) : ℤ) b = (b0 : ℤ))
    (hv : vals.length = b0 - a0) :
    npAddSlice sout a b vals = some ((List.range sout.length).map (fun j =>
      if a0 ≤ j ∧ j < a0 + (b0 - a0) then sout.getD j 0 + vals.getD (j - a0) 0
      else sout.getD j 0)) := by
  simp only [npAddSlice]
  rw [ha, hb, Int.toNat_natCast, Int.toNat_natCast, if_pos hv]

/-! ### The overlap-add loop: closed form -/

/-- Invariant of `ola`'s accumulation loop: starting at frame index `t` of a
grid of `N` frames (so `ii = (t+1)*h - f` and `send = h*N`), the loop
succeeds, preserves the buffer length, and adds, at each output position `j`,
the in-range samples of each remaining frame placed at its hop offset. -/
lemma olaLoop_spec (h f : ℕ) (hh : 1 ≤ h) (hf : 1 ≤ f) (N : ℕ)
    (fs : List (List ℚ)) :
    ∀ (t : ℕ) (sout : List ℚ),
      t + fs.length = N →
      sout.length = h * N →
      (∀ fr ∈ fs, f ≤ fr.length) →
      ∃ out,
        olaLoop h (f : ℤ) ((h * N : ℕ) : ℤ) fs sout ((((t + 1) * h : ℕ) : ℤ) - f) =
          some out ∧
        out.length = h * N ∧
        ∀ j : ℕ, out.getD j 0 = sout.getD j 0 +
          ∑ k ∈ Finset.range fs.length,
            (if (t + k + 1) * h ≤ j + f ∧ j < (t + k + 1) * h
             then (fs.getD k []).getD (j + f - (t + k + 1) * h) 0 else 0) := by
  induction fs with
  | nil =>
    intro t sout hN hlen hfr
    refine ⟨sout, rfl, hlen, ?_⟩
    intro j
    simp
  | cons fr rest ih =>
    intro t sout hN hlen hfr
    rw [List.length_cons] at hN
    have htN : t + 1 ≤ N := by omega
    have hfrf : f ≤ fr.length := hfr fr (by simp)
    have hfr' : ∀ x ∈ rest, f ≤ x.length := fun x hx => hfr x (by simp [hx])
    have hPh : (t + 1) * h = t * h + h := by ring
    have hPN : (t + 1) * h ≤ h * N := by
      rw [mul_comm h N]
      exact Nat.mul_le_mul_right h htN
    have hf'eq : pyTake fr (f : ℤ) = fr.take f := pyTake_natCast fr f
    have hf'len : (fr.take f).length = f := by
      rw [List.length_take]
      omega
    set ii : ℤ := (((t + 1) * h : ℕ) : ℤ) - f with hii
    simp only [olaLoop]
    rw [hf'eq]
    have hstep : ∃ out',
        (if ii < 0 then npAddSlice sout 0 (ii + (f : ℤ)) (pyDrop (fr.take f) (-ii))
         else if (((h * N : ℕ) : ℤ)) < ii + (f : ℤ) then
           npAddSlice sout ii ((sout.length : ℕ) : ℤ)
             (pyTake (fr.take f) ((((h * N : ℕ) : ℤ)) - ii))
         else npAddSlice sout ii (ii + (f : ℤ)) (fr.take f)) = some out' ∧
        out'.length = h * N ∧
        ∀ j : ℕ, out'.getD j 0 = sout.getD j 0 +
          (if (t + 1) * h ≤ j + f ∧ j < (t + 1) * h
           then fr.getD (j + f - (t + 1) * h) 0 else 0) := by
      by_cases hA : (t + 1) * h < f
      · have hii0 : ii < 0 := by omega
        rw [if_pos hii0]
        have hdrop : pyDrop (fr.take f) (-ii) =
            (fr.take f).drop (f - (t + 1) * h) := by
          have hcast : -ii = ((f - (t + 1) * h : ℕ) : ℤ) := by omega
          rw [hcast, pyDrop_natCast]
        rw [hdrop]
        have ha' : pySliceIdx ((sout.length : ℕ) : ℤ) 0 = ((0 : ℕ) : ℤ) := by
          unfold pySliceIdx
          rw [if_neg (by omega)]
          omega
        have hb' : pySliceIdx ((sout.length : ℕ) : ℤ) (ii + (f : ℤ)) =
            (((t + 1) * h : ℕ) : ℤ) := by
          unfold pySliceIdx
          rw [if_neg (by omega), hlen]
          omega
        have hv : ((fr.take f).drop (f - (t + 1) * h)).length = (t + 1) * h - 0 := by
          rw [List.length_drop, hf'len]
          omega
        refine ⟨_, npAddSlice_spec sout _ 0 (ii + (f : ℤ)) 0 ((t + 1) * h) ha' hb' hv,
          ?_, ?_⟩
        · rw [List.length_map, List.length_range, hlen]
        · intro j
          rw [getD_range_map]
          by_cases hj : j < sout.length
          · rw [if_pos hj]
            by_cases hj2 : j < (t + 1) * h
            · rw [if_pos ⟨by omega, by omega⟩, if_pos ⟨by omega, hj2⟩]
              congr 1
              rw [Nat.sub_zero, getD_drop, getD_take, if_pos (by omega)]
              congr 1
              omega
            · rw [if_neg (by omega), if_neg (by omega), add_zero]
          · rw [if_neg hj, List.getD_eq_default _ _ (by omega), if_neg (by omega),
              add_zero]
      · have hii0 : ¬ii < 0 := by omega
        rw [if_neg hii0]
        have hsend : ¬(((h * N : ℕ) : ℤ) < ii + (f : ℤ)) := by omega
        rw [if_neg hsend]
        have ha' : pySliceIdx ((sout.length : ℕ) : ℤ) ii =
            (((t + 1) * h - f : ℕ) : ℤ) := by
          unfold pySliceIdx
          rw [if_neg hii0, hlen]
          omega
        have hb' : pySliceIdx ((sout.length : ℕ) : ℤ) (ii + (f : ℤ)) =
            (((t + 1) * h : ℕ) : ℤ) := by
          unfold pySliceIdx
          rw [if_neg (by omega), hlen]
          omega
        have hv : (fr.take f).length = (t + 1) * h - ((t + 1) * h - f) := by
          rw [hf'len]
          omega
        refine ⟨_, npAddSlice_spec sout _ ii (ii + (f : ℤ)) ((t + 1) * h - f)
          ((t + 1) * h) ha' hb' hv, ?_, ?_⟩
        · rw [List.length_map, List.length_range, hlen]
        · intro j
          rw [getD_range_map]
          by_cases hj : j < sout.length
          · rw [if_pos hj]
            by_cases hj2 : (t + 1) * h ≤ j + f ∧ j < (t + 1) * h
            · rw [if_pos (by omega), if_pos hj2]
              congr 1
              rw [getD_take, if_pos (by omega)]
              congr 1
              omega
            · rw [if_neg (by omega), if_neg hj2, add_zero]
          · rw [if_neg hj, List.getD_eq_default _ _ (by omega), if_neg (by omega),
              add_zero]
    obtain ⟨out', hstepeq, hout'len, hout'getD⟩ := hstep
    rw [hstepeq, Option.some_bind]
    have hiih : ii + (h : ℕ) = (((t + 1 + 1) * h : ℕ) : ℤ) - f := by
      have hr2 : (t + 1 + 1) * h = (t + 1) * h + h := by ring
      omega
    rw [hiih]
    obtain ⟨out, hout, houtlen, houtD⟩ := ih (t + 1) out' (by omega) hout'len hfr'
    refine ⟨out, hout, houtlen, ?_⟩
    intro j
    rw [houtD j, hout'getD j, List.length_cons, Finset.sum_range_succ']
    have hsums : ∑ k ∈ Finset.range rest.length,
        (if (t + 1 + k + 1) * h ≤ j + f ∧ j < (t + 1 + k + 1) * h
         then (rest.getD k []).getD (j + f - (t + 1 + k + 1) * h) 0 else 0) =
      ∑ k ∈ Finset.range rest.length,
        (if (t + (k + 1) + 1) * h ≤ j + f ∧ j < (t + (k + 1) + 1) * h
         then ((fr :: rest).getD (k + 1) []).getD (j + f - (t + (k + 1) + 1) * h) 0
         else 0) := by
      apply Finset.sum_congr rfl
      intro k _
      have he : t + (k + 1) + 1 = t + 1 + k + 1 := by omega
      rw [he, List.getD_cons_succ]
    rw [← hsums]
    simp only [Nat.add_zero, List.getD_cons_zero]
    ring

/-- Closed form of a successful `ola` call on frames at least as long as the
window: the output has length `hsize * nframe` and position `j` accumulates
the in-range frame samples. -/
lemma ola_spec (sframes : List (List ℚ)) (sr : ℕ) (wind : List ℚ) (hsize : ℕ)
    (hh : 1 ≤ hsize) (hf : 1 ≤ wind.length)
    (hfr : ∀ fr ∈ sframes, wind.length ≤ fr.length) :
    ∃ out, ola sframes sr wind hsize = some out ∧
      out.length = hsize * sframes.length ∧
      ∀ j : ℕ, out.getD j 0 =
        ∑ k ∈ Finset.range sframes.length,
          (if (k + 1) * hsize ≤ j + wind.length ∧ j < (k + 1) * hsize
           then (sframes.getD k []).getD (j + wind.length - (k + 1) * hsize) 0
           else 0) := by
  have hsend : olaSend wind.length hsize sframes.length =
      ((hsize * sframes.length : ℕ) : ℤ) := by
    rw [olaSend_eq wind.length hsize sframes.length hf]
    push_cast
    ring
  have hstart : olaSstart wind.length hsize =
      (((0 + 1) * hsize : ℕ) : ℤ) - wind.length := by
    rw [olaSstart_eq wind.length hsize hf]
    push_cast
    ring
  have hrepl : (List.replicate (((hsize * sframes.length : ℕ) : ℤ)).toNat
      (0 : ℚ)).length = hsize * sframes.length := by
    rw [List.length_replicate]
    omega
  obtain ⟨out, hout, hlen, hgetD⟩ := olaLoop_spec hsize wind.length hh hf
    sframes.length sframes 0
    (List.replicate (((hsize * sframes.length : ℕ) : ℤ)).toNat (0 : ℚ))
    (by omega) hrepl hfr
  refine ⟨out, ?_, hlen, ?_⟩
  · unfold ola
    rw [if_neg (by omega), hsend, hstart]
    exact hout
  · intro j
    rw [hgetD j, getD_replicate, zero_add]
    apply Finset.sum_congr rfl
    intro k _
    simp only [Nat.zero_add]

/-- Claim C5: on a non-empty sequence of frames (each at least window-length,
as the data model's Frame type guarantees), `ola` succeeds and returns a
buffer of length `send = olaSend = hsize*(nframe-1)+fsize + sstart`; for
`hsize ≤ fsize` this equals `hsize * nframe`. -/
theorem ola_output_length (sframes : List (List ℚ)) (sr : ℕ) (wind : List ℚ)
    (hsize : ℕ) (hne : sframes ≠ []) (hh : 1 ≤ hsize) (hhf : hsize ≤ wind.length)
    (hfr : ∀ fr ∈ sframes, wind.length ≤ fr.length) :
    ∃ out, ola sframes sr wind hsize = some out ∧
      (out.length : ℤ) = olaSend wind.length hsize sframes.length ∧
      out.length = hsize * sframes.length := by
  obtain ⟨out, h1, h2, _⟩ := ola_spec sframes sr wind hsize hh (by omega) hfr
  refine ⟨out, h1, ?_, h2⟩
  rw [olaSend_eq _ _ _ (by omega), h2]
  push_cast
  ring

/-- Witness for C5: two length-4 frames, window length 4, hop 2. -/
theorem ola_output_length_witness :
    ∃ out, ola [[1, 2, 3, 4], [5, 6, 7, 8]] 1 [1, 1, 1, 1] 2 = some out ∧
      (out.length : ℤ) = olaSend 4 2 2 ∧
      out.length = 2 * 2 :=
  ola_output_length [[1, 2, 3, 4], [5, 6, 7, 8]] 1 [1, 1, 1, 1] 2
    (by simp) (by norm_num) (by norm_num)
    (by
      intro fr hfr
      simp only [List.mem_cons, List.not_mem_nil, or_false] at hfr
      rcases hfr with rfl | rfl <;> simp)

/-- The key COLA bookkeeping: at an output position `j` whose supporting
frames all lie in `0..N-1`, the sum of the window samples hitting `j` under
the synthesis grid equals the residue-class sum of the window, which `cola`
makes 1. -/
lemma cola_shift_sum (w : List ℚ) (h : ℕ) (hh : 1 ≤ h) (hhf : h ≤ w.length)
    (hc : cola w h) (N j : ℕ) (hb : j + w.length < h * (N + 1)) :
    ∑ k ∈ Finset.range N,
      (if (k + 1) * h ≤ j + w.length ∧ j < (k + 1) * h
       then w.getD (j + w.length - (k + 1) * h) 0 else 0) = 1 := by
  set f := w.length with hfdef
  set t := (j + f) % h with ht
  set M := (j + f) / h with hM
  have hdm : h * M + t = j + f := Nat.div_add_mod (j + f) h
  have htlt : t < h := Nat.mod_lt _ (by omega)
  have hM1 : 1 ≤ M := by
    rcases Nat.eq_zero_or_pos M with h0 | h0
    · rw [h0] at hdm
      omega
    · exact h0
  have hMN : M ≤ N := by
    by_contra hcon
    push_neg at hcon
    have hmul : h * (N + 1) ≤ h * M := Nat.mul_le_mul_left h (by omega)
    omega
  have hres : (∑ k ∈ Finset.range M,
      (if (k + 1) * h ≤ j + f ∧ j < (k + 1) * h
       then w.getD (j + f - (k + 1) * h) 0 else 0)) =
      ∑ k ∈ Finset.range N,
      (if (k + 1) * h ≤ j + f ∧ j < (k + 1) * h
       then w.getD (j + f - (k + 1) * h) 0 else 0) := by
    apply Finset.sum_subset (Finset.range_subset.mpr hMN)
    intro k hk hk2
    simp only [Finset.mem_range] at hk hk2
    have e1 : (k + 1) * h = h * (k + 1) := Nat.mul_comm _ _
    have e2 : h * (M + 1) ≤ h * (k + 1) := Nat.mul_le_mul_left h (by omega)
    have e3 : h * (M + 1) = h * M + h := by ring
    rw [if_neg (by omega)]
  rw [← hres, ← Finset.sum_range_reflect]
  have hterm : ∀ k ∈ Finset.range M,
      (if (M - 1 - k + 1) * h ≤ j + f ∧ j < (M - 1 - k + 1) * h
       then w.getD (j + f - (M - 1 - k + 1) * h) 0 else 0) =
      w.getD (t + k * h) 0 := by
    intro k hk
    have hkM : k < M := Finset.mem_range.mp hk
    have e0 : M - 1 - k + 1 = M - k := by omega
    rw [e0]
    have e1 : (M - k) * h = M * h - k * h := Nat.sub_mul M k h
    have e2 : k * h ≤ M * h := Nat.mul_le_mul_right h (by omega)
    have e3 : M * h = h * M := Nat.mul_comm _ _
    by_cases hcond : t + k * h < f
    · rw [if_pos (by omega)]
      congr 1
      omega
    · rw [if_neg (by omega), List.getD_eq_default _ _ (by omega)]
  rw [Finset.sum_congr rfl hterm]
  have hcola := hc t htlt
  rw [colaAt] at hcola
  have hext1 : ∑ k ∈ Finset.range M, w.getD (t + k * h) 0 =
      ∑ k ∈ Finset.range (M + f), w.getD (t + k * h) 0 := by
    apply Finset.sum_subset (Finset.range_subset.mpr (by omega))
    intro k hk hk2
    simp only [Finset.mem_range] at hk hk2
    have e2 : M * h ≤ k * h := Nat.mul_le_mul_right h (by omega)
    have e3 : M * h = h * M := Nat.mul_comm _ _
    apply List.getD_eq_default
    omega
  have hext2 : ∑ k ∈ Finset.range f, w.getD (t + k * h) 0 =
      ∑ k ∈ Finset.range (M + f), w.getD (t + k * h) 0 := by
    apply Finset.sum_subset (Finset.range_subset.mpr (by omega))
    intro k hk hk2
    simp only [Finset.mem_range] at hk hk2
    have e2 : k * 1 ≤ k * h := Nat.mul_le_mul_left k hh
    have e3 : k * 1 = k := Nat.mul_one k
    apply List.getD_eq_default
    omega
  rw [hext1, ← hext2]
  exact hcola

/-- Claim C1 (amended): for a window satisfying constant-overlap-add at hop
size `hsize ≤ fsize`, synthesis inverts analysis when the analysis is run in
synthesis-aligned mode (`synth=true`): `ola(stana(sig, sr, wind, hop,
synth=True), sr, wind, hop)` equals the signal extended with
`hsize*nframe - len(sig)` trailing zeros.  (With the default `synth=False`
the round trip is time-shifted and the original claim fails; see the
counterexample.) -/
theorem stana_ola_roundtrip (sig wind : List ℚ) (sr hsize : ℕ)
    (hh : 1 ≤ hsize) (hhf : hsize ≤ wind.length) (hc : cola wind hsize) :
    ∃ frames, stana sig sr wind hsize true = some frames ∧
      ola frames sr wind hsize =
        some (sig ++ List.replicate
          (hsize * (nframeOf sig.length wind.length hsize true).toNat - sig.length)
          (0 : ℚ)) := by
  have hf : 1 ≤ wind.length := by omega
  have hsst : sstartOf wind.length hsize true = (hsize : ℤ) - wind.length := by
    simp [sstartOf]
  have hzl : zpleftOf wind.length hsize true = (wind.length : ℤ) - hsize := by
    rw [zpleftOf, hsst]
    ring
  have hnf : nframeOf sig.length wind.length hsize true =
      iceil ((sig.length : ℤ) + wind.length - hsize) hsize := by
    rw [nframeOf, hsst]
    congr 1
    ring
  have hn0 : 0 ≤ nframeOf sig.length wind.length hsize true := by
    rw [hnf]
    apply iceil_nonneg _ _ (by omega)
    have h1 : (0 : ℤ) ≤ (sig.length : ℤ) := by positivity
    omega
  obtain ⟨N, hNcast⟩ : ∃ N : ℕ,
      ((N : ℕ) : ℤ) = nframeOf sig.length wind.length hsize true :=
    ⟨_, Int.toNat_of_nonneg hn0⟩
  have hNtoNat : (nframeOf sig.length wind.length hsize true).toNat = N := by omega
  have hcastmul : ((N * hsize : ℕ) : ℤ) = (N : ℤ) * hsize := by push_cast; ring
  have hNh : (sig.length : ℤ) + wind.length - hsize ≤ (N : ℤ) * hsize := by
    rw [hNcast, hnf]
    exact le_iceil_mul _ _ (by omega)
  have hNh' : sig.length + wind.length ≤ N * hsize + hsize := by omega
  have hzr : zprightOf sig.length wind.length hsize true =
      (N : ℤ) * hsize - sig.length := by
    rw [zprightOf, ← hNcast, hzl]
    ring
  have hzl0 : 0 ≤ zpleftOf wind.length hsize true := by
    rw [hzl]
    omega
  have hss0 : sig.length ≤ N * hsize := by omega
  have hzr0 : 0 ≤ zprightOf sig.length wind.length hsize true := by
    rw [hzr]
    omega
  have hzlnat : (zpleftOf wind.length hsize true).toNat = wind.length - hsize := by
    rw [hzl]
    omega
  have hzrnat : (zprightOf sig.length wind.length hsize true).toNat =
      N * hsize - sig.length := by
    rw [hzr]
    omega
  have hstana := stana_eq_of_nonneg sig wind sr hsize true hzl0 hzr0 hn0
  rw [hNtoNat, hzlnat, hzrnat] at hstana
  refine ⟨_, hstana, ?_⟩
  rw [hNtoNat]
  set pad : List ℚ := List.replicate (wind.length - hsize) (0 : ℚ) ++ sig ++
    List.replicate (N * hsize - sig.length) (0 : ℚ) with hpaddef
  set F : List (List ℚ) := (List.range N).map (fun i =>
    (List.range wind.length).map (fun j =>
      pad.getD (i * hsize + j) 0 * wind.getD j 0)) with hFdef
  have hFlen : F.length = N := by
    rw [hFdef, List.length_map, List.length_range]
  have hFfr : ∀ fr ∈ F, wind.length ≤ fr.length := by
    intro fr hfr
    rw [hFdef] at hfr
    simp only [List.mem_map, List.mem_range] at hfr
    obtain ⟨i, _, rfl⟩ := hfr
    simp
  obtain ⟨out, hola, holen, hogetD⟩ := ola_spec F sr wind hsize hh hf hFfr
  rw [hola]
  congr 1
  have hrhslen : (sig ++ List.replicate (hsize * N - sig.length) (0 : ℚ)).length =
      hsize * N := by
    rw [List.length_append, List.length_replicate]
    have e1 : hsize * N = N * hsize := by ring
    omega
  apply list_eq_of_getD
  · rw [holen, hFlen, hrhslen]
  · intro j hj
    rw [holen, hFlen] at hj
    rw [hogetD j, hFlen]
    have hP : ∀ k ∈ Finset.range N,
        (if (k + 1) * hsize ≤ j + wind.length ∧ j < (k + 1) * hsize
         then (F.getD k []).getD (j + wind.length - (k + 1) * hsize) 0 else 0) =
        pad.getD (j + wind.length - hsize) 0 *
          (if (k + 1) * hsize ≤ j + wind.length ∧ j < (k + 1) * hsize
           then wind.getD (j + wind.length - (k + 1) * hsize) 0 else 0) := by
      intro k hk
      have hkN : k < N := Finset.mem_range.mp hk
      by_cases hcond : (k + 1) * hsize ≤ j + wind.length ∧ j < (k + 1) * hsize
      · rw [if_pos hcond, if_pos hcond]
        have hFk : F.getD k [] = (List.range wind.length).map (fun m =>
            pad.getD (k * hsize + m) 0 * wind.getD m 0) := by
          rw [hFdef, getD_range_map, if_pos hkN]
        rw [hFk, getD_range_map]
        have e1 : (k + 1) * hsize = k * hsize + hsize := by ring
        have hidx : j + wind.length - (k + 1) * hsize < wind.length := by omega
        rw [if_pos hidx]
        have hidx2 : k * hsize + (j + wind.length - (k + 1) * hsize) =
            j + wind.length - hsize := by omega
        rw [hidx2]
      · rw [if_neg hcond, if_neg hcond, mul_zero]
    rw [Finset.sum_congr rfl hP, ← Finset.mul_sum]
    have hpadval : pad.getD (j + wind.length - hsize) 0 =
        if j < sig.length then sig.getD j 0 else 0 := by
      have hassoc : pad = List.replicate (wind.length - hsize) (0 : ℚ) ++
          (sig ++ List.replicate (N * hsize - sig.length) (0 : ℚ)) := by
        rw [hpaddef, List.append_assoc]
      rw [hassoc, getD_append, List.length_replicate, if_neg (by omega), getD_append]
      have e : j + wind.length - hsize - (wind.length - hsize) = j := by omega
      rw [e]
      rcases lt_or_ge j sig.length with hcase | hcase
      · rw [if_pos hcase, if_pos hcase]
      · rw [if_neg (by omega), if_neg (by omega), getD_replicate]
    rw [hpadval]
    rcases lt_or_ge j sig.length with hcase | hcase
    · rw [if_pos hcase]
      have hsum : ∑ k ∈ Finset.range N,
          (if (k + 1) * hsize ≤ j + wind.length ∧ j < (k + 1) * hsize
           then wind.getD (j + wind.length - (k + 1) * hsize) 0 else 0) = 1 := by
        apply cola_shift_sum wind hsize hh hhf hc N j
        have e1 : hsize * (N + 1) = N * hsize + hsize := by ring
        omega
      rw [hsum, mul_one, getD_append, if_pos hcase]
    · rw [if_neg (by omega), zero_mul, getD_append, if_neg (by omega), getD_replicate]

/-- The window `[1, 0]` satisfies constant-overlap-add (with constant 1) at
hop size 1. -/
lemma cola_pair : cola [1, 0] 1 := by
  intro t ht
  interval_cases t
  rw [colaAt]
  simp [Finset.sum_range_succ]

/-- Claim C1, counterexample: `[1,0]` with hop 1 is a constant-overlap-add
pair, yet the round trip with both calls at the default `synth=False` flag
returns `[2,0]`, a time-shifted signal, not the original `[1,2]`: the
analysis grid starts at 0 while the synthesizer places the first frame at
`hsize - fsize < 0`. -/
theorem roundtrip_default_flag_cex :
    cola [1, 0] 1 ∧
    (stana [1, 2] 1 [1, 0] 1 false).bind (fun F => ola F 1 [1, 0] 1) =
      some [2, 0] ∧
    ¬((stana [1, 2] 1 [1, 0] 1 false).bind (fun F => ola F 1 [1, 0] 1) =
      some [1, 2]) := by
  have h1 : stana [1, 2] 1 [1, 0] 1 false = some [[1, 0], [2, 0]] := by
    norm_num [stana, stanaPad, nframeOf, sstartOf, zpleftOf, zprightOf, iceil_eq,
      pySliceIdx, List.range_succ]
    all_goals decide
  have hso : olaSstart 2 1 = -1 := by
    rw [olaSstart_eq 2 1 (by norm_num)]
    norm_num
  have hse : olaSend 2 1 2 = 2 := by
    rw [olaSend, olaSsize, hso]
    norm_num
  have h2 : ola [[1, 0], [2, 0]] 1 [1, 0] 1 = some [2, 0] := by
    simp [ola, olaLoop, hse, hso, npAddSlice, pyTake, pyDrop, pySliceIdx,
      min_def, max_def, List.range_succ]
  refine ⟨cola_pair, ?_, ?_⟩
  · rw [h1, Option.some_bind, h2]
  · rw [h1, Option.some_bind, h2]
    norm_num

/-- Witness for the amended C1 at `sig = [1,2]`, `wind = [1,0]`, `hsize = 1`:
the synthesis-aligned round trip returns the signal extended by one zero. -/
theorem stana_ola_roundtrip_witness :
    ∃ frames, stana [1, 2] 1 [1, 0] 1 true = some frames ∧
      ola frames 1 [1, 0] 1 =
        some ([1, 2] ++ List.replicate
          (1 * (nframeOf 2 2 1 true).toNat - 2) (0 : ℚ)) :=
  stana_ola_roundtrip [1, 2] [1, 0] 1 1 (by norm_num) (by norm_num) cola_pair

/-- Witness for the amended C2 at `sig = [1,2,3]`, `wind = [1,1]`, `hsize = 1`,
analysis mode: `stana` succeeds with 3 frames and `numframes` returns 3. -/
theorem numframes_eq_stana_length_witness :
    (([[1, 2], [2, 3], [3, 0]] : List (List ℚ)).length : ℤ) =
      numframes [1, 2, 3] 1 [1, 1] 1 false :=
  numframes_eq_stana_length [1, 2, 3] [1, 1] 1 1 false [[1, 2], [2, 3], [3, 0]]
    (by norm_num) (by norm_num)
    (by
      norm_num [stana, stanaPad, nframeOf, sstartOf, zpleftOf, zprightOf, iceil_eq,
        pySliceIdx, List.range_succ]
      all_goals decide)
